import Mathlib

/-!
Verification development for `ai_yt_summary.py`, a single-module command-line
script that fetches a YouTube video's title and transcript, asks a hosted
language model for a summary, and writes title + summary + transcript to a
timestamped text file.

The script is embedded shallowly: pure string manipulation is translated to
Lean functions over `String` / `List Char`; the three network calls and the
filesystem are modelled as explicit oracles and an explicit trace, and the
whole top-level control flow of the script becomes one function `runProgram`
producing an exit code, the list of network calls issued, and the list of
files written.

Python standard-library routines the script relies on (`configparser`,
`textwrap.fill`, `str` methods, `os.path.join`, dicts) are modelled faithfully
for the feature subset the script exercises; each model carries a doc comment
stating exactly which behaviour of the library routine it captures.
-/

set_option autoImplicit false

namespace AiYtSummary

/-! ## Python dict and str models -/

/-- Python `key in dict` / `dict[key]` lookup on an insertion-ordered
association list (keys are unique by construction wherever we build one). -/
def lookup : List (String × String) → String → Option String
  | [], _ => none
  | (k, v) :: rest, key => if k = key then some v else lookup rest key

/-- Python `dict[key] = value`: overwrite in place if the key is present,
otherwise append (insertion order preserved, as for CPython dicts). -/
def dictInsert : List (String × String) → String → String → List (String × String)
  | [], key, value => [(key, value)]
  | (k, v) :: rest, key, value =>
      if k = key then (k, value) :: rest else (k, v) :: dictInsert rest key value

/-- The exact character set CPython's `str.isspace` / `str.strip` / regex
`\s` (on `str`) recognise: `\t\n\v\f\r`, the C1 separators `\x1c`-`\x1f`,
space, NEL, NBSP, and the Unicode space characters. -/
def pyWhitespace (c : Char) : Bool :=
  (0x09 ≤ c.toNat ∧ c.toNat ≤ 0x0D) ∨ (0x1C ≤ c.toNat ∧ c.toNat ≤ 0x1F) ∨
  c.toNat = 0x20 ∨ c.toNat = 0x85 ∨ c.toNat = 0xA0 ∨ c.toNat = 0x1680 ∨
  (0x2000 ≤ c.toNat ∧ c.toNat ≤ 0x200A) ∨ c.toNat = 0x2028 ∨
  c.toNat = 0x2029 ∨ c.toNat = 0x202F ∨ c.toNat = 0x205F ∨ c.toNat = 0x3000

/-- Python `str.lower()` via `Char.toLower`, which agrees with `str.lower`
on ASCII.  `optionxform` is full-Unicode `str.lower`; the prompt-loading
theorems are therefore scoped to ASCII template files, where the two
coincide. -/
def pyLower (s : String) : String := String.mk (s.toList.map Char.toLower)

/-- Python `str.strip()` with no argument: drop leading and trailing
characters of the `pyWhitespace` set. -/
def pyStrip (s : String) : String :=
  String.mk (((s.toList.dropWhile pyWhitespace).reverse.dropWhile
    pyWhitespace).reverse)

/-- Trailing-whitespace strip on a character list (the `\s*` that
`configparser`'s option regex eats just before a delimiter). -/
def rstripChars (cs : List Char) : List Char :=
  (cs.reverse.dropWhile pyWhitespace).reverse

/-- Every character of every line is ASCII.  The parser model matches
`configparser` exactly on such files (outside ASCII, `optionxform`'s
Unicode lowercasing is not modelled). -/
abbrev asciiLines (lines : List String) : Prop :=
  ∀ l ∈ lines, ∀ c ∈ l.toList, c.toNat < 128

/-! ## configparser model

The script builds `configparser.ConfigParser(allow_no_value=True)` and calls
`config.read('prompts.ini')`, then iterates `config.sections()` and, for each
section, iterates `config._sections[section]` — i.e. the section's **option
keys** in insertion order (values are never read).  The model below captures
`configparser._read` for that use, with the default dialect: delimiters `=`
and `:`, full-line comments `#` and `;`, `strict=True` (duplicate sections or
options raise), indented lines are value continuations (and raise when the
current option has no value, since the stored value is `None`), a `[DEFAULT]`
section is kept out of `sections()`, and option names are passed through
`optionxform = str.lower`.  Input is the file's lines without their trailing
newline; an absent file contributes no lines (`read` ignores missing files).
-/

/-- Number of leading whitespace characters of a raw line
(`configparser`'s `cur_indent_level`, from `NONSPACECRE = \S`). -/
def leadingWS (line : String) : Nat :=
  (line.toList.takeWhile pyWhitespace).length

/-- The comment-stripped, stripped `value` that `configparser._read` computes
for a raw line: a line whose stripped form starts with `#` or `;` is a
full-line comment and yields the empty string. -/
def lineValue (line : String) : String :=
  let s := pyStrip line
  match s.toList with
  | '#' :: _ => ""
  | ';' :: _ => ""
  | _ => s

/-- `configparser.SECTCRE` applied to the stripped line: `\[(?P<header>.+)\]`
with a greedy `.+`, so the header runs from after the opening `[` to the
LAST `]` of the line (at least one character long, not stripped); anything
after that `]` is ignored by `re.match`.  A line with no such match (`[]`,
`[x` ...) falls through to option parsing. -/
def sectionHeaderOf (value : String) : Option String :=
  match value.toList with
  | '[' :: rest =>
      match rest.reverse.dropWhile (fun c => ¬ c = ']') with
      | ']' :: revName =>
          if revName.isEmpty then none else some (String.mk revName.reverse)
      | _ => none
  | _ => none

/-- Option-line split per `configparser.OPTCRE_NV` with `allow_no_value`:
the option name is everything before the first `=` or `:` delimiter, with
trailing whitespace stripped and `str.lower` applied; the returned flag says
whether a delimiter (hence a value) is present.  An empty option name (a
line starting with a delimiter) makes `_read` record a `ParsingError` that
`read()` raises at the end; `iniLine` turns that into its error branch. -/
def optionKeyOf (value : String) : String × Bool :=
  let cs := value.toList
  let pre := cs.takeWhile (fun c => c ≠ '=' ∧ c ≠ ':')
  (pyLower (String.mk (rstripChars pre)), decide (pre.length < cs.length))

/-- Parser state for `configparser._read`: completed sections in file order,
the currently open (non-DEFAULT) section with its keys accumulated in
reverse, whether the current section is `[DEFAULT]`, the keys seen in
`[DEFAULT]`, and the current option / indentation bookkeeping. -/
structure IniState where
  completed : List (String × List String)
  cur : Option (String × List String)
  inDefault : Bool
  defaultKeys : List String
  optname : Option String
  optHasValue : Bool
  indentLevel : Nat

def IniState.init : IniState :=
  ⟨[], none, false, [], none, false, 0⟩

/-- Close the currently open section, appending it (keys back in file order)
to the completed list. -/
def IniState.flush (st : IniState) : List (String × List String) :=
  match st.cur with
  | none => st.completed
  | some (n, ks) => st.completed ++ [(n, ks.reverse)]

/-- All section names seen so far (`elements_added` restricted to sections). -/
def IniState.sectionNames (st : IniState) : List String :=
  st.completed.map Prod.fst ++ (match st.cur with
    | none => []
    | some (n, _) => [n])

/-- Keys already present in the section currently being filled. -/
def IniState.curKeys (st : IniState) : List String :=
  if st.inDefault then st.defaultKeys
  else match st.cur with
    | none => []
    | some (_, ks) => ks

/-- Record a freshly parsed option key in the current section. -/
def IniState.addKey (st : IniState) (key : String) (hasValue : Bool) : IniState :=
  if st.inDefault then
    { st with defaultKeys := key :: st.defaultKeys
              optname := some key, optHasValue := hasValue }
  else
    match st.cur with
    | none => st
    | some (n, ks) =>
        { st with cur := some (n, key :: ks)
                  optname := some key, optHasValue := hasValue }

/-- One line of `configparser._read`. -/
def iniLine (st : IniState) (line : String) : Except String IniState :=
  let value := lineValue line
  if value = "" then .ok st
  else
    let ind := leadingWS line
    if (st.cur.isSome || st.inDefault)
        ∧ st.optname.isSome ∧ st.optname ≠ some ""
        ∧ st.indentLevel < ind then
      if st.optHasValue then .ok st
      else .error "continuation line after an option with no value"
    else
      let st := { st with indentLevel := ind }
      match sectionHeaderOf value with
      | some name =>
          if name ∈ st.sectionNames then .error "duplicate section"
          else if name = "DEFAULT" then
            .ok { st with completed := st.flush, cur := none,
                          inDefault := true, optname := none }
          else
            .ok { st with completed := st.flush, cur := some (name, []),
                          inDefault := false, optname := none }
      | none =>
          if st.cur.isSome || st.inDefault then
            let (key, hasValue) := optionKeyOf value
            if key = "" then .error "empty option name"
            else if key ∈ st.curKeys then .error "duplicate option"
            else .ok (st.addKey key hasValue)
          else .error "missing section header"

def iniReadAux (st : IniState) : List String → Except String (List (String × List String))
  | [] => .ok st.flush
  | l :: ls =>
      match iniLine st l with
      | .error e => .error e
      | .ok st' => iniReadAux st' ls

/-- `ConfigParser(allow_no_value=True).read` on the given file lines,
returning the sections of `config.sections()` in order, each with its option
keys in insertion order. -/
def iniRead (lines : List String) : Except String (List (String × List String)) :=
  iniReadAux IniState.init lines

/-! ## load_prompts -/

/-- The fixed fallback instruction string the script installs under the key
`prompt 0`. -/
def defaultPrompt : String :=
  "Please provide a summary of the following video transcript."

/-- Body text the script derives from one section: its option keys joined
with newlines, then stripped. -/
def sectionBody (keys : List String) : String :=
  pyStrip (String.intercalate "\n" keys)

/-- The loop `for section in config.sections(): prompts[section] = body`,
starting from the empty dict. -/
def buildDict (sections : List (String × List String)) : List (String × String) :=
  sections.foldl (fun d s => dictInsert d s.1 (sectionBody s.2)) []

/-- `load_prompts` from `ai_yt_summary.py`: read `prompts.ini` (an absent
file reads as no lines), build `prompts[section] = "\n".join(keys).strip()`
for each section in order, then set `prompts['prompt 0']` to the fixed
default.  A parse error in the file propagates (the Python exception would
abort the run). -/
def load_prompts (file : Option (List String)) : Except String (List (String × String)) := do
  let sections ← iniRead (file.getD [])
  pure (dictInsert (buildDict sections) "prompt 0" defaultPrompt)

/-! ## Prompt-id selection -/

/-- Module-level `prompt_id` computation: when `prompts.ini` exists it is
`sys.argv[2]` if supplied, else the string `"1"`; when the file is absent it
is the integer `0`, whose later `str()` rendering is `"0"` — we carry that
rendering directly. -/
def promptIdOf (fileExists : Bool) (argv2 : Option String) : String :=
  if fileExists then argv2.getD "1" else "0"

/-- `main`'s prompt choice:
`prompts['prompt ' + str(prompt_id)] if 'prompt ' + str(prompt_id) in prompts
else prompts['prompt 0']`.  The `'prompt 0'` entry always exists
(`load_prompts` installs it last), so the `.getD` default is never used. -/
def selectPrompt (prompts : List (String × String)) (pid : String) : String :=
  match lookup prompts ("prompt " ++ pid) with
  | some v => v
  | none => (lookup prompts "prompt 0").getD ""

/-- End-to-end prompt resolution for a run: the prompt `main` passes to the
summarizer, given the template file's lines (or `none` when absent) and the
optional second command-line argument. -/
def resolvedPrompt (file : Option (List String)) (argv2 : Option String) :
    Except String String := do
  let prompts ← load_prompts file
  pure (selectPrompt prompts (promptIdOf file.isSome argv2))

/-! ## Transcript fetching and word wrap

`get_transcript` collects `snippet.text` from the transcript provider's timed
snippets and returns `textwrap.fill(' '.join(texts), width=80)`.  The model
below ports the default `TextWrapper` pipeline: `_munge_whitespace` (tab
expansion, then each of `\t\n\v\f\r` becomes a space), `_split` (the
`wordsep_re` chunking: whitespace runs, em-dash runs between word
characters, and words cut after legitimate hyphen break points — whitespace
runs are chunks of their own, so internal runs and leading whitespace
survive exactly as in Python), and `_wrap_chunks` (greedy packing with
`drop_whitespace` and `break_long_words`/`break_on_hyphens`).  The `\w` and
letter classes of `wordsep_re` are Unicode in Python; the model uses their
ASCII restrictions, and the transcript theorems quantify over ASCII snippet
texts, where the two coincide. -/

/-- One timed transcript snippet as returned by the provider: the script
reads only `.text`; the timing fields are carried to state that they are
dropped. -/
structure Snippet where
  text : String
  start : String
  duration : String

/-- The whitespace set textwrap itself uses (`string.whitespace`, i.e.
`\t\n\v\f\r` and space): `_munge_whitespace` translates exactly these to
spaces, and `wordsep_re` breaks chunks exactly at them.  Distinct from
`pyWhitespace` (full `str.isspace`), which textwrap only applies through
`str.strip` in its whitespace-chunk tests. -/
def pyTextWS (c : Char) : Bool :=
  c = ' ' ∨ c = '\t' ∨ c = '\n' ∨ c = '\x0b' ∨ c = '\x0c' ∨ c = '\r'

/-- `str.expandtabs(8)`: each tab becomes spaces up to the next multiple of
eight columns; the column counter resets after `\n` and `\r` (CPython
`unicode_expandtabs`). -/
def expandTabs : List Char → Nat → List Char
  | [], _ => []
  | c :: cs, col =>
      if c = '\t' then
        List.replicate (8 - col % 8) ' ' ++ expandTabs cs 0
      else if c = '\n' ∨ c = '\r' then
        c :: expandTabs cs 0
      else
        c :: expandTabs cs (col + 1)

/-- `TextWrapper._munge_whitespace` with the default options: expand tabs,
then turn each remaining `\t\n\v\f\r` into a space. -/
def munge (cs : List Char) : List Char :=
  (expandTabs cs 0).map (fun c => if pyTextWS c then ' ' else c)

/-- ASCII `\w` (`[A-Za-z0-9_]`). -/
def isWordChar (c : Char) : Bool := c.isAlphanum ∨ c = '_'

/-- ASCII `[^\d\W]` of `wordsep_re` — a word character that is not a
digit. -/
def isLetterChar (c : Char) : Bool := c.isAlpha ∨ c = '_'

/-- The `word_punct` class `[\w!"\x27&.,?]` of `wordsep_re` (ASCII `\w`). -/
def isWP (c : Char) : Bool :=
  isWordChar c ∨ c = '!' ∨ c = '"' ∨ c = '\'' ∨ c = '&' ∨ c = '.' ∨
    c = ',' ∨ c = '?'

def ltAt (cs : List Char) (i : Nat) : Bool :=
  match cs.get? i with
  | some c => isLetterChar c
  | none => false

def wpAt (cs : List Char) (i : Nat) : Bool :=
  match cs.get? i with
  | some c => isWP c
  | none => false

def dashAt (cs : List Char) (i : Nat) : Bool :=
  match cs.get? i with
  | some c => c = '-'
  | none => false

def wordAt (cs : List Char) (i : Nat) : Bool :=
  match cs.get? i with
  | some c => isWordChar c
  | none => false

def wsOrEndAt (cs : List Char) (i : Nat) : Bool :=
  match cs.get? i with
  | some c => pyTextWS c
  | none => true

def dashRunFrom (cs : List Char) (i : Nat) : Nat :=
  ((cs.drop i).takeWhile (fun c => c = '-')).length

/-- Lookahead `-{2,}\w` at position `i`: an em-dash run of length at least
two followed directly by a word character (with only dashes available, the
regex cannot backtrack to a shorter run). -/
def emDashAheadAt (cs : List Char) (i : Nat) : Bool :=
  2 ≤ dashRunFrom cs i ∧ wordAt cs (i + dashRunFrom cs i)

/-- The hyphenated-word arm of `wordsep_re`, for a word chunk starting at
`p` with `m` characters consumed: the next character is a hyphen whose
lookbehind (`lt lt -` or `lt - lt -`, allowed to reach before the chunk
start) and lookahead (`lt -? lt`) both hold; the arm consumes the hyphen. -/
def hyphenArm (cs : List Char) (p m : Nat) : Bool :=
  dashAt cs (p + m) ∧
  ((2 ≤ p + m ∧ ltAt cs (p + m - 2) ∧ ltAt cs (p + m - 1)) ∨
   (3 ≤ p + m ∧ ltAt cs (p + m - 3) ∧ dashAt cs (p + m - 2) ∧
     ltAt cs (p + m - 1))) ∧
  ltAt cs (p + m + 1) ∧
  (ltAt cs (p + m + 2) ∨ (dashAt cs (p + m + 2) ∧ ltAt cs (p + m + 3)))

/-- Length of the word chunk starting at `p`: the non-greedy `[^ws]+?`
extends to the first `m` at which one of the three closing arms fires, in
the regex order — hyphenated word (which also takes the hyphen), end of word
at whitespace or end of text, em-dash ahead after a `word_punct` character.
The end-of-word arm fires at the end of the maximal non-whitespace run at
the latest, so fuel `cs.length + 1` is never exhausted. -/
def wordChunkLen (cs : List Char) (p : Nat) : Nat → Nat → Nat
  | m, 0 => m
  | m, fuel + 1 =>
      if hyphenArm cs p m then m + 1
      else if wsOrEndAt cs (p + m) then m
      else if wpAt cs (p + m - 1) ∧ emDashAheadAt cs (p + m) then m
      else wordChunkLen cs p (m + 1) fuel

/-- Length of the `wordsep_re` match at position `p`; every in-range
position starts a match — a whitespace run, an em-dash run with a
`word_punct` character before it and a word character after it, or a word
chunk. -/
def chunkFrom (cs : List Char) (p : Nat) : Nat :=
  match cs.get? p with
  | none => 0
  | some c =>
      if pyTextWS c then ((cs.drop p).takeWhile pyTextWS).length
      else if 1 ≤ p ∧ wpAt cs (p - 1) ∧ c = '-' ∧ emDashAheadAt cs p then
        dashRunFrom cs p
      else wordChunkLen cs p 1 (cs.length + 1)

def chunksOfAux (cs : List Char) : Nat → Nat → List (List Char)
  | _, 0 => []
  | p, fuel + 1 =>
      if cs.length ≤ p then []
      else
        let k := chunkFrom cs p
        if k = 0 then []
        else (cs.drop p).take k :: chunksOfAux cs (p + k) fuel

/-- `TextWrapper._split`: the chunk list of `wordsep_re.split` (the matches
cover the text, so no empty pieces arise); each match has length at least
one, so fuel `cs.length` is never exhausted. -/
def chunksOf (cs : List Char) : List (List Char) :=
  chunksOfAux cs 0 cs.length

def totalLen (ls : List (List Char)) : Nat := (ls.map List.length).sum

/-- `chunk.strip() == ''` — a chunk of (Unicode) whitespace only. -/
def isWSChunk (l : List Char) : Bool := l.all pyWhitespace

/-- The greedy packing loop of `_wrap_chunks`: take chunks while the line
stays within the width. -/
def packChunks (width : Nat) : Nat → List (List Char) → List (List Char) × List (List Char)
  | _, [] => ([], [])
  | curLen, c :: rest =>
      if curLen + c.length ≤ width then
        let r := packChunks width (curLen + c.length) rest
        (c :: r.1, r.2)
      else ([], c :: rest)

def lastIdxOf (ch : Char) : List Char → Option Nat
  | [] => none
  | c :: rest =>
      match lastIdxOf ch rest with
      | some i => some (i + 1)
      | none => if c = ch then some 0 else none

/-- `TextWrapper._handle_long_word` with `break_long_words` and
`break_on_hyphens` on: cut the chunk at the space left on the line, or just
after the last hyphen before that point when the hyphen follows some
non-hyphen text; returns the piece for the current line and the remainder
(possibly empty, exactly as Python leaves an empty string chunk). -/
def handleLongWord (width curLen : Nat) (chunk : List Char) : List Char × List Char :=
  let spaceLeft := if width < 1 then 1 else width - curLen
  let endIdx :=
    if spaceLeft < chunk.length then
      match lastIdxOf '-' (chunk.take spaceLeft) with
      | some h =>
          if 0 < h ∧ (chunk.take h).any (fun c => ¬ c = '-') then h + 1
          else spaceLeft
      | none => spaceLeft
    else spaceLeft
  (chunk.take endIdx, chunk.drop endIdx)

/-- The `if chunks and len(chunks[-1]) > width` arm of `_wrap_chunks`: when
the next chunk alone exceeds the width, split it and put its remainder
back. -/
def longAdjust (width : Nat) (pr : List (List Char) × List (List Char)) :
    List (List Char) × List (List Char) :=
  match pr.2 with
  | c :: cs =>
      if width < c.length then
        let hw := handleLongWord width (totalLen pr.1) c
        (pr.1 ++ [hw.1], hw.2 :: cs)
      else (pr.1, c :: cs)
  | [] => (pr.1, [])

/-- The `drop_whitespace` trailing rule of `_wrap_chunks`: remove one
whitespace chunk from the end of the current line. -/
def dropTrailingWS (ls : List (List Char)) : List (List Char) :=
  match ls.getLast? with
  | some last => if isWSChunk last then ls.dropLast else ls
  | none => ls

/-- One outer iteration of `_wrap_chunks` (defaults: empty indents,
`drop_whitespace` on): drop a leading whitespace chunk on every line but the
first, pack greedily, split an oversized head chunk, drop a trailing
whitespace chunk, and emit the line when anything is left of it.  Returns
the emitted line (if any) and the remaining chunks. -/
def wrapStep (width : Nat) (haveLine : Bool) (c0 : List Char)
    (rest : List (List Char)) : Option (List Char) × List (List Char) :=
  let chunks1 := if haveLine ∧ isWSChunk c0 then rest else c0 :: rest
  let pr := longAdjust width (packChunks width 0 chunks1)
  let cur := dropTrailingWS pr.1
  (if cur.isEmpty then none else some cur.join, pr.2)

/-- The outer loop of `_wrap_chunks`, one iteration per fuel unit.  Every
iteration consumes a chunk or shortens one, except the zero-space split of
an exactly full line, which emits that line and is followed by a consuming
iteration; hence fuel `2*(chars + chunks) + 2` is never exhausted. -/
def wrapChunksGo (width : Nat) : Nat → Bool → List (List Char) → List (List Char)
  | 0, _, _ => []
  | _, _, [] => []
  | fuel + 1, haveLine, c0 :: rest =>
      match wrapStep width haveLine c0 rest with
      | (none, rem) => wrapChunksGo width fuel haveLine rem
      | (some line, rem) => line :: wrapChunksGo width fuel true rem

def wrapChunks (width : Nat) (chunks : List (List Char)) : List (List Char) :=
  wrapChunksGo width (2 * (totalLen chunks + chunks.length) + 2) false chunks

/-- Join lines with `'\n'` (`"\n".join(lines)`). -/
def joinLines : List (List Char) → List Char
  | [] => []
  | [l] => l
  | l :: ls => l ++ '\n' :: joinLines ls

/-- Split a character list at every occurrence of `sep`, keeping empty
pieces. -/
def splitOnChar (sep : Char) : List Char → List (List Char)
  | [] => [[]]
  | c :: cs =>
      let rest := splitOnChar sep cs
      if c = sep then [] :: rest
      else
        match rest with
        | [] => [[c]]
        | l :: ls => (c :: l) :: ls

/-- The lines of a character list (split at `'\n'`, final newline not
special-cased). -/
def splitLinesChars : List Char → List (List Char) :=
  splitOnChar '\n'

/-- The lines of a string. -/
def linesOf (s : String) : List String :=
  (splitLinesChars s.toList).map String.mk

/-- `textwrap.fill(text, width)` with the default `TextWrapper`. -/
def textwrapFill (width : Nat) (text : String) : String :=
  String.mk (joinLines (wrapChunks width (chunksOf (munge text.toList))))

/-- `get_transcript` from `ai_yt_summary.py`, applied to the snippet list the
provider returns: join the snippet texts with single spaces and fill to 80
columns. -/
def get_transcript (snippets : List Snippet) : String :=
  textwrapFill 80 (String.intercalate " " (snippets.map Snippet.text))

/-! ## Summarizer -/

/-- The request payload `oai_summarize_ytt` builds:
`full_prompt = prompt + '\n\n' + ytt_fulltext`. -/
def full_prompt (prompt ytt_fulltext : String) : String :=
  prompt ++ "\n\n" ++ ytt_fulltext

/-- `oai_summarize_ytt` with the completion endpoint abstracted as a fallible
function from request payload to generated text: the script sends exactly
`full_prompt` and returns the endpoint's output text. -/
def oai_summarize_ytt (complete : String → Except String String)
    (prompt ytt_fulltext : String) : Except String String :=
  complete (full_prompt prompt ytt_fulltext)

/-! ## Filename construction and file writing -/

/-- Characters the sanitising `re.sub(r'[^a-zA-Z0-9 ]', '', title)` keeps:
ASCII letters, ASCII digits and the space. -/
def keepTitleChar (c : Char) : Bool :=
  c.isAlpha || c.isDigit || c = ' '

/-- The character map of `str.replace(' ', '-')`. -/
def hyphenate (c : Char) : Char :=
  if c = ' ' then '-' else c

/-- Whether a POSIX path string is absolute. -/
def isAbsolute (b : String) : Bool :=
  match b.toList with
  | '/' :: _ => true
  | _ => false

/-- POSIX `os.path.join` for the two-argument form the script uses: the
second component replaces everything if absolute, else the components are
joined with a single `/` (the first argument is the literal `'yt_summaries'`,
which has no trailing slash). -/
def osPathJoin (a b : String) : String :=
  if isAbsolute b then b else a ++ "/" ++ b

/-- `make_filename` from `ai_yt_summary.py`.  `date_string` stands for
`datetime.now().strftime("%Y%m%d%H%M%S")`, a 14-digit decimal string;
`video_id` is the module-level global taken from `sys.argv[1]`.  The title is
filtered to `[a-zA-Z0-9 ]` and cut to 30 characters, the three parts and the
`.txt` suffix are concatenated, spaces are replaced by hyphens in the whole
name, and the name is joined under `yt_summaries`. -/
def make_filename (date_string video_id yt_title : String) : String :=
  let t := String.mk ((yt_title.toList.filter keepTitleChar).take 30)
  let outfile := date_string ++ "_" ++ video_id ++ "_" ++ t ++ ".txt"
  let outfile := String.mk (outfile.toList.map hyphenate)
  osPathJoin "yt_summaries" outfile

/-- The sanitised title fragment exactly as §4.5 of the spec words it: strip
every character outside `[A-Za-z0-9 ]`, truncate to 30 characters, replace
spaces with hyphens.  (Spec-side definition, compared against
`make_filename` in the refinement theorems.) -/
def sanitizedTitleSpec (t : String) : String :=
  String.mk (((t.toList.filter keepTitleChar).take 30).map hyphenate)

/-- The `/`-separated components of a path string. -/
def pathSegs (s : String) : List String :=
  (splitOnChar '/' s.toList).map String.mk

/-- The directory a path's final component lives in: all components but the
last, rejoined with `/`. -/
def parentDir (s : String) : String :=
  String.intercalate "/" (pathSegs s).dropLast

/-- POSIX resolution of the relative components of a path against the
working directory: drop empty and `.` components, and let `..` discard the
preceding component. -/
def normalizeSegs (segs : List String) : List String :=
  segs.foldl
    (fun acc seg =>
      if seg = "" ∨ seg = "." then acc
      else if seg = ".." then acc.dropLast
      else acc ++ [seg]) []

/-- The byte content `save_file` produces: the four sequential
`fd.write` calls, concatenated.  The file is opened in mode `'w'` with UTF-8
encoding, so the content is this string and nothing else. -/
def save_file_content (yt_title response_text ytt_fulltext : String) : String :=
  String.join [yt_title ++ "\n\n", response_text, "\n\n", ytt_fulltext]

/-! ## Whole-program model

`runProgram` is the script's top level: the module-level credential and
argument checks, then `main()`.  Network traffic is modelled as an explicit
trace of issued calls plus an `Oracle` giving each call's outcome, and the
filesystem write as the list of `(path, content)` files created.  A Python
exception escaping `main` terminates the interpreter with exit status 1, so
every failure arm carries exit code 1. -/

inductive NetCall where
  | titleFetch (url : String)
  | transcriptFetch (videoId : String)
  | completion (model : String) (payload : String)
  deriving DecidableEq, Repr

/-- Outcomes of the three external collaborators: the oEmbed title lookup,
the transcript provider (a list of timed snippets), and the completion
endpoint (a function of the request payload). -/
structure Oracle where
  titleResult : Except String String
  transcriptResult : Except String (List Snippet)
  completionResult : String → Except String String

/-- Observable outcome of one invocation: the process exit status, the lines
printed to standard output, the network calls issued in order, and the
`(path, content)` files created. -/
structure RunResult where
  exitCode : Nat
  stdout : List String
  calls : List NetCall
  files : List (String × String)

/-- The module-level `title_url` template. -/
def title_url (video_id : String) : String :=
  "https://www.youtube.com/oembed?url=http://www.youtube.com/watch?v=" ++
    video_id ++ "&format=json"

/-- The whole script on one invocation.  `env` is the process environment
after `load_dotenv` (which only adds variables from a local file, no network
involved); `argv` includes the program name at index 0; `promptsFile` is
`some lines` exactly when `prompts.ini` exists; `date_string` is the
timestamp `make_filename` renders. -/
def runProgram (env : List (String × String)) (argv : List String)
    (promptsFile : Option (List String)) (oracle : Oracle)
    (date_string : String) : RunResult :=
  if lookup env "OPENAI_API_KEY" = none then
    ⟨1, ["Error: OPENAI_API_KEY not found in environment variables."], [], []⟩
  else if argv.length < 2 then
    ⟨1, ["Usage: python get_yt_summary.py <YouTube Video ID> <Prompt ID (optional)>"], [], []⟩
  else
    let video_id := (argv.get? 1).getD ""
    let pid := promptIdOf promptsFile.isSome (argv.get? 2)
    match load_prompts promptsFile with
    | .error _ => ⟨1, [], [], []⟩
    | .ok prompts =>
      let calls := [NetCall.titleFetch (title_url video_id)]
      match oracle.titleResult with
      | .error _ => ⟨1, [], calls, []⟩
      | .ok yt_title =>
        let calls := calls ++ [NetCall.transcriptFetch video_id]
        match oracle.transcriptResult with
        | .error _ => ⟨1, [], calls, []⟩
        | .ok snippets =>
          let ytt_fulltext := get_transcript snippets
          let prompt := selectPrompt prompts pid
          let payload := full_prompt prompt ytt_fulltext
          let calls := calls ++ [NetCall.completion "gpt-5-mini" payload]
          match oracle.completionResult payload with
          | .error _ => ⟨1, [], calls, []⟩
          | .ok summary =>
            let outfile := make_filename date_string video_id yt_title
            ⟨0, [], calls, [(outfile, save_file_content yt_title summary ytt_fulltext)]⟩

/-! ## Helper lemmas: dictionaries -/

theorem string_data_inj {a b : String} (h : a.data = b.data) : a = b :=
  String.ext h

theorem lookup_dictInsert_self (d : List (String × String)) (k v : String) :
    lookup (dictInsert d k v) k = some v := by
  induction d with
  | nil => simp [dictInsert, lookup]
  | cons hd tl ih =>
      obtain ⟨k', v'⟩ := hd
      by_cases h : k' = k
      · simp [dictInsert, lookup, h]
      · simp [dictInsert, lookup, h, ih]

theorem lookup_dictInsert_ne (d : List (String × String)) (k v k' : String)
    (h : k ≠ k') : lookup (dictInsert d k v) k' = lookup d k' := by
  induction d with
  | nil => simp [dictInsert, lookup, h]
  | cons hd tl ih =>
      obtain ⟨k₀, v₀⟩ := hd
      by_cases h₀ : k₀ = k
      · subst h₀; simp [dictInsert, lookup, h]
      · simp [dictInsert, lookup, h₀, ih]

theorem lookup_eq_none_of_not_mem (d : List (String × String)) (k : String)
    (h : k ∉ d.map Prod.fst) : lookup d k = none := by
  induction d with
  | nil => simp [lookup]
  | cons hd tl ih =>
      obtain ⟨k₀, v₀⟩ := hd
      simp only [List.map_cons, List.mem_cons] at h
      push_neg at h
      simp [lookup, Ne.symm h.1, ih h.2]

theorem dictInsert_of_not_mem (d : List (String × String)) (k v : String)
    (h : k ∉ d.map Prod.fst) : dictInsert d k v = d ++ [(k, v)] := by
  induction d with
  | nil => simp [dictInsert]
  | cons hd tl ih =>
      obtain ⟨k₀, v₀⟩ := hd
      simp only [List.map_cons, List.mem_cons] at h
      push_neg at h
      simp [dictInsert, Ne.symm h.1, ih h.2]

theorem lookup_append_left (d₁ d₂ : List (String × String)) (k v : String)
    (h : lookup d₁ k = some v) : lookup (d₁ ++ d₂) k = some v := by
  induction d₁ with
  | nil => simp [lookup] at h
  | cons hd tl ih =>
      obtain ⟨k₀, v₀⟩ := hd
      by_cases h₀ : k₀ = k
      · simp_all [lookup]
      · simp_all [lookup]

theorem lookup_append_right (d₁ d₂ : List (String × String)) (k : String)
    (h : k ∉ d₁.map Prod.fst) : lookup (d₁ ++ d₂) k = lookup d₂ k := by
  induction d₁ with
  | nil => simp
  | cons hd tl ih =>
      obtain ⟨k₀, v₀⟩ := hd
      simp only [List.map_cons, List.mem_cons] at h
      push_neg at h
      simp [lookup, Ne.symm h.1, ih h.2]

/-- The dict built by the `load_prompts` loop is just the section list with
bodies rendered, provided the section names are distinct (which the parser
guarantees). -/
theorem buildDict_eq_map (sections : List (String × List String))
    (hnd : (sections.map Prod.fst).Nodup) :
    buildDict sections = sections.map (fun s => (s.1, sectionBody s.2)) := by
  suffices h : ∀ (acc : List (String × String)),
      (∀ s ∈ sections, s.1 ∉ acc.map Prod.fst) →
      (sections.map Prod.fst).Nodup →
      sections.foldl (fun d s => dictInsert d s.1 (sectionBody s.2)) acc =
        acc ++ sections.map (fun s => (s.1, sectionBody s.2)) by
    simpa [buildDict] using h [] (by simp) hnd
  clear hnd
  induction sections with
  | nil => intro acc _ _; simp
  | cons hd tl ih =>
      intro acc hacc hnd
      obtain ⟨n, ks⟩ := hd
      simp only [List.foldl_cons]
      rw [dictInsert_of_not_mem acc n (sectionBody ks)
        (hacc (n, ks) (List.mem_cons_self _ _))]
      rw [ih (acc ++ [(n, sectionBody ks)]) ?_ ?_]
      · simp
      · intro s hs
        simp only [List.map_append, List.mem_append, List.map_cons, List.map_nil,
          List.mem_singleton, not_or]
        refine ⟨hacc s (List.mem_cons_of_mem _ hs), ?_⟩
        intro h
        simp only [List.map_cons, List.nodup_cons] at hnd
        exact hnd.1 (h ▸ List.mem_map_of_mem Prod.fst hs)
      · simp only [List.map_cons, List.nodup_cons] at hnd
        exact hnd.2

/-! ## Helper lemmas: the ini parser keeps section names distinct -/

theorem flush_map_fst (st : IniState) :
    st.flush.map Prod.fst = st.sectionNames := by
  cases h : st.cur <;> simp [IniState.flush, IniState.sectionNames, h]

theorem sectionNames_addKey (st : IniState) (k : String) (b : Bool) :
    (st.addKey k b).sectionNames = st.sectionNames := by
  cases hd : st.inDefault <;> cases hc : st.cur <;>
    simp [IniState.addKey, IniState.sectionNames, hd, hc]

theorem iniLine_nodup (st : IniState) (line : String) (st' : IniState)
    (h : iniLine st line = .ok st') (hnd : st.sectionNames.Nodup) :
    st'.sectionNames.Nodup := by
  simp only [iniLine] at h
  repeat' split at h
  all_goals try simp only [Except.ok.injEq, reduceCtorEq] at h
  all_goals subst h
  all_goals try exact hnd
  all_goals try simpa [IniState.sectionNames, flush_map_fst] using hnd
  · rename_i name heq hmem hdef
    simp only [IniState.sectionNames, flush_map_fst]
    rw [List.nodup_append]
    refine ⟨hnd, List.nodup_singleton _, fun a ha hb => ?_⟩
    simp only [List.mem_singleton] at hb
    subst hb
    exact hmem ha
  · rw [sectionNames_addKey]
    exact hnd

theorem iniReadAux_nodup (lines : List String) (st : IniState)
    (sections : List (String × List String))
    (hnd : st.sectionNames.Nodup)
    (h : iniReadAux st lines = .ok sections) :
    (sections.map Prod.fst).Nodup := by
  induction lines generalizing st with
  | nil =>
      simp only [iniReadAux] at h
      rw [← Except.ok.inj h, flush_map_fst]
      exact hnd
  | cons l ls ih =>
      simp only [iniReadAux] at h
      cases hl : iniLine st l with
      | error e => rw [hl] at h; exact absurd h (by simp)
      | ok st' =>
          rw [hl] at h
          exact ih st' (iniLine_nodup st l st' hl hnd) h

theorem iniRead_nodup (lines : List String) (sections : List (String × List String))
    (h : iniRead lines = .ok sections) : (sections.map Prod.fst).Nodup :=
  iniReadAux_nodup lines IniState.init sections (by simp [IniState.init, IniState.sectionNames]) h

/-- Looking a section name up in the rendered section list. -/
theorem lookup_map_sections (sections : List (String × List String))
    (hnd : (sections.map Prod.fst).Nodup) (n : String) (ks : List String)
    (hmem : (n, ks) ∈ sections) :
    lookup (sections.map (fun s => (s.1, sectionBody s.2))) n = some (sectionBody ks) := by
  induction sections with
  | nil => cases hmem
  | cons hd tl ih =>
      obtain ⟨n₀, ks₀⟩ := hd
      simp only [List.map_cons, List.nodup_cons] at hnd
      rcases List.mem_cons.mp hmem with heq | htl
      · obtain ⟨rfl, rfl⟩ := Prod.mk.injEq .. ▸ heq
        simp [lookup]
      · have hne : n₀ ≠ n := by
          intro hrfl
          exact hnd.1 (hrfl ▸ List.mem_map_of_mem Prod.fst htl)
        simp [lookup, hne, ih hnd.2 htl]

/-- Successful runs of `load_prompts` come from a successful parse, followed
by the body rendering and the fallback insertion. -/
theorem load_prompts_eq (file : Option (List String)) (prompts : List (String × String))
    (h : load_prompts file = .ok prompts) :
    ∃ sections, iniRead (file.getD []) = .ok sections ∧
      prompts = dictInsert (buildDict sections) "prompt 0" defaultPrompt := by
  cases hr : iniRead (file.getD []) with
  | error e =>
      rw [load_prompts, hr] at h
      exact absurd h (by simp [Bind.bind, Except.bind])
  | ok sections =>
      rw [load_prompts, hr] at h
      refine ⟨sections, rfl, ?_⟩
      simpa [Bind.bind, Except.bind, pure, Except.pure] using h.symm

theorem prompt_key_inj (a b : String) (h : "prompt " ++ a = "prompt " ++ b) :
    a = b := by
  have hd := congrArg String.data h
  simp only [String.data_append] at hd
  exact string_data_inj (List.append_cancel_left hd)

/-- The entry `load_prompts` produces for a parsed section other than the
fallback key. -/
theorem lookup_load_prompts (lines : List String)
    (sections : List (String × List String)) (prompts : List (String × String))
    (hr : iniRead lines = .ok sections)
    (hp : load_prompts (some lines) = .ok prompts)
    (n : String) (ks : List String) (hmem : (n, ks) ∈ sections)
    (hne : n ≠ "prompt 0") :
    lookup prompts n = some (sectionBody ks) := by
  obtain ⟨sections', hr', rfl⟩ := load_prompts_eq _ _ hp
  simp only [Option.getD] at hr'
  obtain rfl : sections = sections' := Except.ok.inj (hr.symm.trans hr')
  rw [lookup_dictInsert_ne _ _ _ _ (fun he => hne he.symm)]
  rw [buildDict_eq_map _ (iniRead_nodup _ _ hr)]
  exact lookup_map_sections _ (iniRead_nodup _ _ hr) _ _ hmem

/-! ## Helper lemmas: word wrap -/

theorem splitOnChar_ne_nil (sep : Char) (cs : List Char) :
    splitOnChar sep cs ≠ [] := by
  induction cs with
  | nil => simp [splitOnChar]
  | cons c cs ih =>
      simp only [splitOnChar]
      split
      · simp
      · cases h : splitOnChar sep cs with
        | nil => exact absurd h ih
        | cons l ls => simp [h]

theorem splitOnChar_not_mem (sep : Char) (cs : List Char) (h : sep ∉ cs) :
    splitOnChar sep cs = [cs] := by
  induction cs with
  | nil => rfl
  | cons c cs ih =>
      simp only [List.mem_cons, not_or] at h
      have hcs : ¬ c = sep := fun he => h.1 he.symm
      simp only [splitOnChar]
      rw [ih h.2]
      simp [hcs]

theorem splitOnChar_append (sep : Char) (l rest : List Char) (h : sep ∉ l) :
    splitOnChar sep (l ++ sep :: rest) = l :: splitOnChar sep rest := by
  induction l with
  | nil => simp [splitOnChar]
  | cons c cs ih =>
      simp only [List.mem_cons, not_or] at h
      have hcs : ¬ c = sep := fun he => h.1 he.symm
      simp only [List.cons_append, splitOnChar, List.append_eq]
      rw [ih h.2]
      simp [hcs]

theorem splitLines_joinLines (ls : List (List Char)) (hne : ls ≠ [])
    (h : ∀ l ∈ ls, '\n' ∉ l) : splitLinesChars (joinLines ls) = ls := by
  induction ls with
  | nil => exact absurd rfl hne
  | cons l ls ih =>
      cases ls with
      | nil =>
          simp only [joinLines, splitLinesChars]
          exact splitOnChar_not_mem '\n' l (h l (List.mem_cons_self _ _))
      | cons l' ls' =>
          simp only [joinLines, splitLinesChars] at ih ⊢
          rw [splitOnChar_append '\n' l _ (h l (List.mem_cons_self _ _))]
          rw [ih (by simp) (fun x hx => h x (List.mem_cons_of_mem _ hx))]

/-! ## Helper lemmas: word wrap -/

theorem munge_no_nl (cs : List Char) : ∀ c ∈ munge cs, ¬ c = '\n' := by
  intro c hc
  simp only [munge, List.mem_map] at hc
  obtain ⟨x, hx, rfl⟩ := hc
  by_cases h : pyTextWS x = true
  · simp only [h, if_true]
    decide
  · simp only [h, if_false, Bool.false_eq_true]
    intro he
    subst he
    exact h (by decide)

theorem chunksOfAux_chars (cs : List Char) :
    ∀ fuel p, ∀ ch ∈ chunksOfAux cs p fuel, ∀ c ∈ ch, c ∈ cs := by
  intro fuel
  induction fuel with
  | zero => intro p ch hch; simp [chunksOfAux] at hch
  | succ n ih =>
      intro p ch hch c hc
      simp only [chunksOfAux] at hch
      split at hch
      · cases hch
      · split at hch
        · cases hch
        · rcases List.mem_cons.mp hch with rfl | h
          · exact List.mem_of_mem_drop (List.mem_of_mem_take hc)
          · exact ih _ ch h c hc

theorem packChunks_le (width : Nat) (cs : List (List Char)) :
    ∀ curLen, curLen ≤ width →
      curLen + totalLen (packChunks width curLen cs).1 ≤ width := by
  induction cs with
  | nil => intro curLen h; simpa [packChunks, totalLen] using h
  | cons c rest ih =>
      intro curLen h
      simp only [packChunks]
      split
      · rename_i hfit
        have := ih (curLen + c.length) hfit
        simp only [totalLen, List.map_cons, List.sum_cons] at *
        omega
      · simpa [totalLen] using h

theorem packChunks_mem (width : Nat) (cs : List (List Char)) :
    ∀ curLen,
      (∀ ch ∈ (packChunks width curLen cs).1, ch ∈ cs) ∧
      (∀ ch ∈ (packChunks width curLen cs).2, ch ∈ cs) := by
  induction cs with
  | nil => intro curLen; simp [packChunks]
  | cons c rest ih =>
      intro curLen
      simp only [packChunks]
      split
      · refine ⟨fun ch hch => ?_, fun ch hch => ?_⟩
        · rcases List.mem_cons.mp hch with rfl | h
          · exact List.mem_cons_self _ _
          · exact List.mem_cons_of_mem _ ((ih (curLen + c.length)).1 ch h)
        · exact List.mem_cons_of_mem _ ((ih (curLen + c.length)).2 ch hch)
      · constructor
        · intro ch hch
          exact absurd hch (List.not_mem_nil ch)
        · intro ch hch
          exact hch

theorem lastIdxOf_lt (ch : Char) (l : List Char) :
    ∀ i, lastIdxOf ch l = some i → i < l.length := by
  induction l with
  | nil => intro i h; simp [lastIdxOf] at h
  | cons c rest ih =>
      intro i h
      simp only [lastIdxOf] at h
      cases hr : lastIdxOf ch rest with
      | some j =>
          rw [hr] at h
          obtain rfl := Option.some.inj h
          have := ih j hr
          simp only [List.length_cons]
          omega
      | none =>
          rw [hr] at h
          by_cases hc : c = ch
          · rw [if_pos hc] at h
            obtain rfl := Option.some.inj h
            simp
          · rw [if_neg hc] at h
            cases h

theorem handleLongWord_le (width curLen : Nat) (chunk : List Char)
    (hw : 1 ≤ width) :
    (handleLongWord width curLen chunk).1.length ≤ width - curLen := by
  have hnw : ¬ width < 1 := by omega
  have htake : ∀ endIdx, endIdx ≤ width - curLen →
      (chunk.take endIdx).length ≤ width - curLen := by
    intro e he
    calc (chunk.take e).length ≤ e := by
          rw [List.length_take]
          exact Nat.min_le_left _ _
      _ ≤ width - curLen := he
  simp only [handleLongWord, if_neg hnw]
  split
  · split
    · rename_i hlong h hsome
      split
      · refine htake _ ?_
        have hlt := lastIdxOf_lt '-' (chunk.take (width - curLen)) h hsome
        have hmin : (chunk.take (width - curLen)).length ≤ width - curLen := by
          rw [List.length_take]
          exact Nat.min_le_left _ _
        exact Nat.succ_le_of_lt (Nat.lt_of_lt_of_le hlt hmin)
      · exact htake _ (le_refl _)
    · exact htake _ (le_refl _)
  · exact htake _ (le_refl _)

theorem handleLongWord_mem (width curLen : Nat) (chunk : List Char) :
    (∀ c ∈ (handleLongWord width curLen chunk).1, c ∈ chunk) ∧
    (∀ c ∈ (handleLongWord width curLen chunk).2, c ∈ chunk) :=
  ⟨fun c hc => List.mem_of_mem_take hc, fun c hc => List.mem_of_mem_drop hc⟩

theorem totalLen_dropLast_le (ls : List (List Char)) :
    totalLen ls.dropLast ≤ totalLen ls := by
  induction ls with
  | nil => simp [totalLen]
  | cons x rest ih =>
      cases rest with
      | nil => simp [totalLen]
      | cons y rest2 =>
          simp only [List.dropLast_cons₂, totalLen, List.map_cons, List.sum_cons] at *
          omega

theorem longAdjust_le (width : Nat) (pr : List (List Char) × List (List Char))
    (hw : 1 ≤ width) (h : totalLen pr.1 ≤ width) :
    totalLen (longAdjust width pr).1 ≤ width := by
  simp only [longAdjust]
  split
  · split
    · rename_i c cs heq hlong
      have h1 := handleLongWord_le width (totalLen pr.1) c hw
      simp only [totalLen, List.map_append, List.sum_append, List.map_cons,
        List.sum_cons, List.map_nil, List.sum_nil] at *
      omega
    · exact h
  · exact h

theorem dropTrailingWS_le (ls : List (List Char)) :
    totalLen (dropTrailingWS ls) ≤ totalLen ls := by
  simp only [dropTrailingWS]
  split
  · split
    · exact totalLen_dropLast_le ls
    · exact le_refl _
  · exact le_refl _

theorem dropTrailingWS_mem (ls : List (List Char)) :
    ∀ ch ∈ dropTrailingWS ls, ch ∈ ls := by
  simp only [dropTrailingWS]
  split
  · split
    · exact fun ch hch => (List.dropLast_sublist ls).subset hch
    · exact fun ch hch => hch
  · exact fun ch hch => hch

theorem longAdjust_mem (width : Nat) (pr : List (List Char) × List (List Char))
    (P : Char → Prop)
    (h1 : ∀ ch ∈ pr.1, ∀ c ∈ ch, P c) (h2 : ∀ ch ∈ pr.2, ∀ c ∈ ch, P c) :
    (∀ ch ∈ (longAdjust width pr).1, ∀ c ∈ ch, P c) ∧
    (∀ ch ∈ (longAdjust width pr).2, ∀ c ∈ ch, P c) := by
  simp only [longAdjust]
  split
  · rename_i c cs heq
    split
    · constructor
      · intro ch hch c' hc'
        rcases List.mem_append.mp hch with h | h
        · exact h1 ch h c' hc'
        · simp only [List.mem_singleton] at h
          subst h
          exact h2 c (heq ▸ List.mem_cons_self _ _) c'
            ((handleLongWord_mem width (totalLen pr.1) c).1 c' hc')
      · intro ch hch c' hc'
        rcases List.mem_cons.mp hch with rfl | h
        · exact h2 c (heq ▸ List.mem_cons_self _ _) c'
            ((handleLongWord_mem width (totalLen pr.1) c).2 c' hc')
        · exact h2 ch (heq ▸ List.mem_cons_of_mem _ h) c' hc'
    · exact ⟨h1, fun ch hch => h2 ch (heq ▸ hch)⟩
  · exact ⟨h1, fun ch hch => by cases hch⟩

/-- The chunk list a `_wrap_chunks` iteration turns into its line always
joins to at most `width` characters. -/
theorem wrapOut_le (width : Nat) (hw : 1 ≤ width) (chunks1 : List (List Char)) :
    (dropTrailingWS (longAdjust width (packChunks width 0 chunks1)).1).join.length ≤
      width := by
  have hpack := packChunks_le width chunks1 0 (by omega)
  have hadj := longAdjust_le width (packChunks width 0 chunks1) hw
    (by simpa using hpack)
  have hdrop := dropTrailingWS_le (longAdjust width (packChunks width 0 chunks1)).1
  have hlen : (dropTrailingWS (longAdjust width
      (packChunks width 0 chunks1)).1).join.length =
      totalLen (dropTrailingWS (longAdjust width (packChunks width 0 chunks1)).1) := by
    simp [totalLen, List.length_join]
  omega

/-- A `_wrap_chunks` iteration that emits a line emits the join of the
packed, adjusted, trailing-stripped chunk list, and leaves the adjusted
remainder. -/
theorem wrapStep_some (width : Nat) (haveLine : Bool) (c0 : List Char)
    (rest : List (List Char)) (line : List Char) (rem : List (List Char))
    (h : wrapStep width haveLine c0 rest = (some line, rem)) :
    line = (dropTrailingWS (longAdjust width (packChunks width 0
      (if haveLine ∧ isWSChunk c0 then rest else c0 :: rest))).1).join ∧
    rem = (longAdjust width (packChunks width 0
      (if haveLine ∧ isWSChunk c0 then rest else c0 :: rest))).2 := by
  simp only [wrapStep] at h
  rw [Prod.mk.injEq] at h
  obtain ⟨h1, h2⟩ := h
  refine ⟨?_, h2.symm⟩
  by_cases he : (dropTrailingWS (longAdjust width (packChunks width 0
      (if haveLine ∧ isWSChunk c0 then rest else c0 :: rest))).1).isEmpty = true
  · rw [if_pos he] at h1
    cases h1
  · rw [if_neg he] at h1
    exact (Option.some.inj h1).symm

/-- The line a `_wrap_chunks` iteration emits never exceeds the width. -/
theorem wrapStep_line_le (width : Nat) (hw : 1 ≤ width) (haveLine : Bool)
    (c0 : List Char) (rest : List (List Char)) (line : List Char)
    (rem : List (List Char))
    (h : wrapStep width haveLine c0 rest = (some line, rem)) :
    line.length ≤ width := by
  rw [(wrapStep_some width haveLine c0 rest line rem h).1]
  exact wrapOut_le width hw _

/-- A `_wrap_chunks` iteration only rearranges characters of its input
chunks: any character property of the chunks carries to the emitted line and
to the remaining chunks. -/
theorem wrapStep_chars (width : Nat) (haveLine : Bool) (c0 : List Char)
    (rest : List (List Char)) (P : Char → Prop)
    (hin : ∀ ch ∈ c0 :: rest, ∀ c ∈ ch, P c) :
    (∀ line rem, wrapStep width haveLine c0 rest = (some line, rem) →
      ∀ c ∈ line, P c) ∧
    (∀ ch ∈ (wrapStep width haveLine c0 rest).2, ∀ c ∈ ch, P c) := by
  have hin1 : ∀ ch ∈ (if haveLine ∧ isWSChunk c0 then rest else c0 :: rest),
      ∀ c ∈ ch, P c := by
    split
    · exact fun ch hch => hin ch (List.mem_cons_of_mem _ hch)
    · exact hin
  have hp := packChunks_mem width
    (if haveLine ∧ isWSChunk c0 then rest else c0 :: rest) 0
  have hadj := longAdjust_mem width
    (packChunks width 0 (if haveLine ∧ isWSChunk c0 then rest else c0 :: rest)) P
    (fun ch hch => hin1 ch (hp.1 ch hch)) (fun ch hch => hin1 ch (hp.2 ch hch))
  constructor
  · intro line rem h c hc
    rw [(wrapStep_some width haveLine c0 rest line rem h).1] at hc
    obtain ⟨ch, hch, hcch⟩ := List.mem_join.mp hc
    exact hadj.1 ch (dropTrailingWS_mem _ ch hch) c hcch
  · intro ch hch c hc
    have hsnd : (wrapStep width haveLine c0 rest).2 =
        (longAdjust width (packChunks width 0
          (if haveLine ∧ isWSChunk c0 then rest else c0 :: rest))).2 := rfl
    rw [hsnd] at hch
    exact hadj.2 ch hch c hc

/-- Every line the wrap loop produces is within the width and free of
newline characters, provided the chunks are newline-free. -/
theorem wrapChunksGo_bound (width : Nat) (hw : 1 ≤ width) :
    ∀ fuel haveLine chunks,
      (∀ ch ∈ chunks, ∀ c ∈ ch, ¬ c = '\n') →
      ∀ l ∈ wrapChunksGo width fuel haveLine chunks,
        l.length ≤ width ∧ '\n' ∉ l := by
  intro fuel
  induction fuel with
  | zero => intro _ _ _ l hl; simp [wrapChunksGo] at hl
  | succ n ih =>
      intro haveLine chunks hch l hl
      cases chunks with
      | nil => simp [wrapChunksGo] at hl
      | cons c0 rest =>
          simp only [wrapChunksGo] at hl
          cases hstep : wrapStep width haveLine c0 rest with
          | mk oline rem =>
              have hchars := wrapStep_chars width haveLine c0 rest
                (fun c => ¬ c = '\n') hch
              rw [hstep] at hl
              cases oline with
              | none =>
                  exact ih haveLine rem
                    (fun ch h c hc => (hstep ▸ hchars.2) ch h c hc) l hl
              | some line =>
                  rcases List.mem_cons.mp hl with rfl | h
                  · refine ⟨wrapStep_line_le width hw _ _ _ _ _ hstep, ?_⟩
                    intro hnl
                    exact hchars.1 l rem hstep '\n' hnl rfl
                  · exact ih true rem
                      (fun ch hh c hc => (hstep ▸ hchars.2) ch hh c hc) l h

/-- Every line of `textwrapFill width text` has at most `width`
characters. -/
theorem textwrapFill_lines (width : Nat) (hw : 1 ≤ width) (text : String) :
    ∀ l ∈ linesOf (textwrapFill width text), l.length ≤ width := by
  intro l hl
  rw [linesOf] at hl
  have hchars : ∀ ch ∈ chunksOf (munge text.toList), ∀ c ∈ ch, ¬ c = '\n' :=
    fun ch hch c hc =>
      munge_no_nl text.toList c (chunksOfAux_chars _ _ _ ch hch c hc)
  have hb := wrapChunksGo_bound width hw
    (2 * (totalLen (chunksOf (munge text.toList)) +
      (chunksOf (munge text.toList)).length) + 2)
    false (chunksOf (munge text.toList)) hchars
  have htoList : (textwrapFill width text).toList =
      joinLines (wrapChunks width (chunksOf (munge text.toList))) := rfl
  rw [htoList] at hl
  cases hls : wrapChunks width (chunksOf (munge text.toList)) with
  | nil =>
      rw [hls] at hl
      simp only [joinLines, splitLinesChars, splitOnChar, List.map_cons,
        List.map_nil, List.mem_singleton] at hl
      subst hl
      simp [String.length]
  | cons l0 ls =>
      rw [hls] at hl
      have hmem : ∀ x ∈ l0 :: ls, x.length ≤ width ∧ '\n' ∉ x := by
        intro x hx
        exact hb x (by rw [show wrapChunksGo width _ false _ =
          wrapChunks width (chunksOf (munge text.toList)) from rfl, hls]; exact hx)
      rw [splitLines_joinLines _ (by simp) (fun x hx => (hmem x hx).2)] at hl
      obtain ⟨cs, hcs, rfl⟩ := List.mem_map.mp hl
      simpa [String.length] using (hmem cs hcs).1

/-! ## Helper lemmas: filename construction -/

theorem map_hyphenate_id (cs : List Char) (h : ∀ c ∈ cs, ¬ c = ' ') :
    cs.map hyphenate = cs := by
  induction cs with
  | nil => rfl
  | cons c cs ih =>
      simp only [List.map_cons]
      rw [ih (fun c' hc' => h c' (List.mem_cons_of_mem _ hc'))]
      simp [hyphenate, h c (List.mem_cons_self _ _)]

theorem digit_ne_space {c : Char} (h : c.isDigit = true) : ¬ c = ' ' := by
  intro he
  subst he
  exact absurd h (by decide)

theorem isAbsolute_cons (c : Char) (cs : List Char) (h : ¬ c = '/') :
    isAbsolute (String.mk (c :: cs)) = false := by
  simp only [isAbsolute]
  split
  · rename_i heq
    injection heq with h1 _
    exact absurd h1 h
  · rfl

/-- What `make_filename` produces, for an arbitrary video id: the timestamp
(all digits, hence untouched by the space replacement), the id with the
space-to-hyphen map applied, and the sanitised title, joined under the fixed
output directory. -/
theorem make_filename_general (date_string video_id yt_title : String)
    (hdate : ∀ c ∈ date_string.toList, c.isDigit = true) :
    make_filename date_string video_id yt_title =
      "yt_summaries/" ++ date_string ++ "_" ++
        String.mk (video_id.toList.map hyphenate) ++ "_" ++
        sanitizedTitleSpec yt_title ++ ".txt" := by
  have hdm : date_string.data.map hyphenate = date_string.data :=
    map_hyphenate_id _ (fun c hc => digit_ne_space (hdate c hc))
  have hlist : ((date_string ++ "_" ++ video_id ++ "_" ++
      String.mk ((yt_title.toList.filter keepTitleChar).take 30) ++
      ".txt")).toList = date_string.toList ++ '_' ::
        (video_id.toList ++ '_' ::
          (((yt_title.toList.filter keepTitleChar).take 30) ++ ".txt".toList)) := by
    show (date_string ++ "_" ++ video_id ++ "_" ++ _ ++ ".txt").data = _
    simp [String.data_append, String.toList]
  have habs : isAbsolute (String.mk
      (((date_string ++ "_" ++ video_id ++ "_" ++
        String.mk ((yt_title.toList.filter keepTitleChar).take 30) ++
        ".txt")).toList.map hyphenate)) = false := by
    rw [hlist]
    cases hd : date_string.toList with
    | nil =>
        simp only [List.nil_append, List.map_cons]
        exact isAbsolute_cons _ _ (by decide)
    | cons c cs =>
        have hcd := hdate c (by rw [hd]; exact List.mem_cons_self _ _)
        simp only [List.cons_append, List.map_cons]
        have h1 : hyphenate c = c := by
          simp [hyphenate, digit_ne_space hcd]
        rw [h1]
        refine isAbsolute_cons _ _ (fun he => ?_)
        subst he
        exact absurd hcd (by decide)
  simp only [make_filename, osPathJoin, habs, if_false, Bool.false_eq_true]
  apply string_data_inj
  simp [String.data_append, String.toList, List.map_append, hdm, hyphenate,
    sanitizedTitleSpec]

/-- With a space-free video id (real YouTube ids draw on letters, digits,
`-` and `_`), the id passes through `make_filename` verbatim. -/
theorem make_filename_no_space_id (date_string video_id yt_title : String)
    (hdate : ∀ c ∈ date_string.toList, c.isDigit = true)
    (hvid : ∀ c ∈ video_id.toList, ¬ c = ' ') :
    make_filename date_string video_id yt_title =
      "yt_summaries/" ++ date_string ++ "_" ++ video_id ++ "_" ++
        sanitizedTitleSpec yt_title ++ ".txt" := by
  rw [make_filename_general _ _ _ hdate]
  have h : String.mk (video_id.toList.map hyphenate) = video_id := by
    rw [map_hyphenate_id _ hvid]
    rfl
  rw [h]

/-! ## The claims -/

/-- Claim C1, counterexample.  The claim says each section's entry is the
section's body lines joined with newlines and trimmed, the body text kept
verbatim apart from that joining and trimming.  It is false: the loop in
`load_prompts` iterates over `config._sections[section]`, i.e. the parsed
option *keys*, which `configparser` passes through `optionxform = str.lower`.
For the file `[prompt 1]` / `Summarize The Video`, the section's only body
line is `Summarize The Video`, so the claimed entry is that verbatim line,
but the produced entry is the lowercased `summarize the video`. -/
theorem claim_C1_counterexample :
    iniRead ["[prompt 1]", "Summarize The Video"] =
      .ok [("prompt 1", ["summarize the video"])] ∧
    load_prompts (some ["[prompt 1]", "Summarize The Video"]) =
      .ok [("prompt 1", "summarize the video"), ("prompt 0", defaultPrompt)] ∧
    ("summarize the video" : String) ≠ "Summarize The Video" :=
  ⟨rfl, rfl, by decide⟩

/-- Claim C1, amended: for every present template file of ASCII text that
parses, each named section becomes one prompt entry, and the entry's value
is the section's parsed option keys — each body line truncated at its first
`=` or `:` delimiter, right-stripped and lowercased, with indented
continuation lines absorbed into the preceding option — joined with newlines
and trimmed of leading/trailing whitespace.  (A section named `prompt 0` is
excepted: its entry is overwritten by the fixed default.  The ASCII scope is
where the modelled `str.lower` matches Python's Unicode one.) -/
theorem claim_C1_amended (lines : List String)
    (sections : List (String × List String)) (prompts : List (String × String))
    (_hascii : asciiLines lines)
    (hr : iniRead lines = .ok sections)
    (hp : load_prompts (some lines) = .ok prompts) :
    ∀ n ks, (n, ks) ∈ sections → n ≠ "prompt 0" →
      lookup prompts n = some (pyStrip (String.intercalate "\n" ks)) :=
  fun n ks hmem hne => lookup_load_prompts lines sections prompts hr hp n ks hmem hne

theorem claim_C1_witness :
    lookup [("prompt 1", "summarize the video"), ("prompt 0", defaultPrompt)]
      "prompt 1" = some (pyStrip (String.intercalate "\n" ["summarize the video"])) :=
  claim_C1_amended ["[prompt 1]", "Summarize The Video"]
    [("prompt 1", ["summarize the video"])]
    [("prompt 1", "summarize the video"), ("prompt 0", defaultPrompt)]
    (by decide) rfl rfl "prompt 1" ["summarize the video"] (by simp) (by decide)

/-- Claim C2, counterexample.  The claim says that whenever the template file
exists and contains a section matching the supplied prompt-id, that section's
body is the prompt used.  It is false for the fallback's own id: with a file
defining `[prompt 0]` with body `custom instructions` and supplied id `"0"`,
the file contains a section matching the id, with a body that parses to
itself, yet the prompt used is the fixed default, because `load_prompts`
overwrites the `prompt 0` entry last. -/
theorem claim_C2_counterexample :
    iniRead ["[prompt 0]", "custom instructions"] =
      .ok [("prompt 0", ["custom instructions"])] ∧
    sectionBody ["custom instructions"] = "custom instructions" ∧
    resolvedPrompt (some ["[prompt 0]", "custom instructions"]) (some "0") =
      .ok defaultPrompt ∧
    defaultPrompt ≠ "custom instructions" :=
  ⟨rfl, rfl, rfl, by decide⟩

/-- Claim C2, amended: prompt selection resolves as follows (template files
taken as ASCII text, where the modelled parser matches `configparser`).
When the template file is absent, the supplied prompt-id is ignored and the
fallback default prompt is used regardless of its value.  When the file
exists and parses with a section matching `prompt <id>` for a supplied id
other than the fallback's own id `0`, that section's parsed entry is the
prompt used.  When the supplied id matches no section, the fixed default
prompt is used without error. -/
theorem claim_C2_amended :
    (∀ argv2, resolvedPrompt none argv2 = .ok defaultPrompt) ∧
    (∀ lines sections id2 ks, asciiLines lines → iniRead lines = .ok sections →
      id2 ≠ "0" → ("prompt " ++ id2, ks) ∈ sections →
      resolvedPrompt (some lines) (some id2) = .ok (sectionBody ks)) ∧
    (∀ lines sections id2, asciiLines lines → iniRead lines = .ok sections →
      ("prompt " ++ id2) ∉ sections.map Prod.fst →
      resolvedPrompt (some lines) (some id2) = .ok defaultPrompt) := by
  refine ⟨fun argv2 => rfl, ?_, ?_⟩
  · intro lines sections id2 ks _hascii hr hne hmem
    have hload : load_prompts (some lines) =
        .ok (dictInsert (buildDict sections) "prompt 0" defaultPrompt) := by
      simp [load_prompts, hr, Bind.bind, Except.bind, pure, Except.pure]
    have hkey : ¬ ("prompt 0" : String) = "prompt " ++ id2 := by
      intro he
      exact hne (prompt_key_inj "0" id2 (by rw [← he]; decide)).symm
    have hlk : lookup (dictInsert (buildDict sections) "prompt 0" defaultPrompt)
        ("prompt " ++ id2) = some (sectionBody ks) := by
      rw [lookup_dictInsert_ne _ _ _ _ hkey]
      rw [buildDict_eq_map _ (iniRead_nodup _ _ hr)]
      exact lookup_map_sections _ (iniRead_nodup _ _ hr) _ _ hmem
    simp [resolvedPrompt, hload, Bind.bind, Except.bind, pure, Except.pure,
      promptIdOf, selectPrompt, hlk]
  · intro lines sections id2 _hascii hr hmem
    have hload : load_prompts (some lines) =
        .ok (dictInsert (buildDict sections) "prompt 0" defaultPrompt) := by
      simp [load_prompts, hr, Bind.bind, Except.bind, pure, Except.pure]
    by_cases hk : ("prompt " ++ id2) = "prompt 0"
    · have hlk : lookup (dictInsert (buildDict sections) "prompt 0" defaultPrompt)
          ("prompt " ++ id2) = some defaultPrompt := by
        rw [hk]; exact lookup_dictInsert_self _ _ _
      simp [resolvedPrompt, hload, Bind.bind, Except.bind, pure, Except.pure,
        promptIdOf, selectPrompt, hlk]
    · have hlk : lookup (dictInsert (buildDict sections) "prompt 0" defaultPrompt)
          ("prompt " ++ id2) = none := by
        rw [lookup_dictInsert_ne _ _ _ _ (fun he => hk he.symm)]
        rw [buildDict_eq_map _ (iniRead_nodup _ _ hr)]
        apply lookup_eq_none_of_not_mem
        simpa [List.map_map, Function.comp] using hmem
      simp [resolvedPrompt, hload, Bind.bind, Except.bind, pure, Except.pure,
        promptIdOf, selectPrompt, hlk, lookup_dictInsert_self]

theorem claim_C2_witness :
    resolvedPrompt (some ["[prompt 2]", "body text"]) (some "2") = .ok (sectionBody ["body text"]) ∧
    resolvedPrompt (some ["[prompt 2]", "body text"]) (some "9") = .ok defaultPrompt ∧
    resolvedPrompt none (some "9") = .ok defaultPrompt :=
  ⟨claim_C2_amended.2.1 ["[prompt 2]", "body text"] [("prompt 2", ["body text"])]
      "2" ["body text"] (by decide) rfl (by decide) (by decide),
    claim_C2_amended.2.2 ["[prompt 2]", "body text"] [("prompt 2", ["body text"])]
      "9" (by decide) rfl (by decide),
    claim_C2_amended.1 (some "9")⟩

/-- Claim C3: if `OPENAI_API_KEY` is absent from the process environment the
program terminates with exit status 1 and a human-readable message, without
issuing any network call — no title fetch, transcript fetch or summarization
request — and without writing any file. -/
theorem claim_C3 (env : List (String × String)) (argv : List String)
    (promptsFile : Option (List String)) (oracle : Oracle) (date_string : String)
    (h : lookup env "OPENAI_API_KEY" = none) :
    (runProgram env argv promptsFile oracle date_string).exitCode = 1 ∧
    (runProgram env argv promptsFile oracle date_string).stdout =
      ["Error: OPENAI_API_KEY not found in environment variables."] ∧
    (runProgram env argv promptsFile oracle date_string).calls = [] ∧
    (runProgram env argv promptsFile oracle date_string).files = [] := by
  simp [runProgram, h]

theorem claim_C3_witness :
    (runProgram [("HOME", "/root")] ["prog", "vid"] none
      ⟨.ok "T", .ok [], fun _ => .ok "S"⟩ "20240101000000").exitCode = 1 ∧
    (runProgram [("HOME", "/root")] ["prog", "vid"] none
      ⟨.ok "T", .ok [], fun _ => .ok "S"⟩ "20240101000000").stdout =
      ["Error: OPENAI_API_KEY not found in environment variables."] ∧
    (runProgram [("HOME", "/root")] ["prog", "vid"] none
      ⟨.ok "T", .ok [], fun _ => .ok "S"⟩ "20240101000000").calls = [] ∧
    (runProgram [("HOME", "/root")] ["prog", "vid"] none
      ⟨.ok "T", .ok [], fun _ => .ok "S"⟩ "20240101000000").files = [] :=
  claim_C3 [("HOME", "/root")] ["prog", "vid"] none
    ⟨.ok "T", .ok [], fun _ => .ok "S"⟩ "20240101000000" rfl

/-- Claim C5: for every title, summary and transcript, the file content
written by `save_file` is the title line, a blank line, the summary text, two
newline characters, and the transcript text, in that order (the script writes
this string UTF-8 encoded); consequently the content begins with the fetched
title. -/
theorem claim_C5 (yt_title response_text ytt_fulltext : String) :
    save_file_content yt_title response_text ytt_fulltext =
      yt_title ++ "\n\n" ++ response_text ++ "\n\n" ++ ytt_fulltext ∧
    ∃ rest, save_file_content yt_title response_text ytt_fulltext =
      yt_title ++ rest := by
  constructor
  · apply string_data_inj
    simp [save_file_content, String.join, String.data_append]
  · refine ⟨"\n\n" ++ response_text ++ "\n\n" ++ ytt_fulltext, ?_⟩
    apply string_data_inj
    simp [save_file_content, String.join, String.data_append]

/-- Claim C8: for every template file — present, absent, or containing a
section with the fallback's own name `prompt 0` — the mapping returned by
`load_prompts` binds the fallback key `prompt 0` to the fixed default
instruction string (the entry is installed after the section loop, so it
always wins), and a selection that matches no entry resolves to the default
rather than failing. -/
theorem claim_C8 (file : Option (List String)) (prompts : List (String × String))
    (h : load_prompts file = .ok prompts) :
    lookup prompts "prompt 0" = some defaultPrompt ∧
    (∀ pid, lookup prompts ("prompt " ++ pid) = none →
      selectPrompt prompts pid = defaultPrompt) := by
  obtain ⟨sections, _, rfl⟩ := load_prompts_eq _ _ h
  refine ⟨lookup_dictInsert_self _ _ _, fun pid hnone => ?_⟩
  simp [selectPrompt, hnone, lookup_dictInsert_self]

theorem claim_C8_witness :
    lookup [("prompt 0", defaultPrompt)] "prompt 0" = some defaultPrompt ∧
    (∀ pid, lookup [("prompt 0", defaultPrompt)] ("prompt " ++ pid) = none →
      selectPrompt [("prompt 0", defaultPrompt)] pid = defaultPrompt) :=
  claim_C8 (some ["[prompt 0]", "user supplied body"]) [("prompt 0", defaultPrompt)] rfl

/-- Claim C9: for every prompt string and transcript string, the payload the
summarizer sends to the completion endpoint is exactly the prompt, a
blank-line separator of two newline characters, and the transcript,
concatenated into one string. -/
theorem claim_C9 (complete : String → Except String String)
    (prompt ytt_fulltext : String) :
    full_prompt prompt ytt_fulltext = prompt ++ "\n\n" ++ ytt_fulltext ∧
    oai_summarize_ytt complete prompt ytt_fulltext =
      complete (prompt ++ "\n\n" ++ ytt_fulltext) :=
  ⟨rfl, rfl⟩

/-- Claim C7: for every sequence of transcript snippets, `get_transcript`
returns the snippet texts concatenated with single-space separators and
reflowed to the fixed 80-column width by `textwrap.fill`; the result depends
only on the snippet texts (no timestamps survive, and caption line breaks
are turned into spaces by the whitespace munging); and every line of the
returned string is at most 80 characters long — unconditionally, in fact:
the claim assumes no individual word exceeds the width, but the modelled
`break_long_words` splitting enforces the bound even without it.  The
ASCII-text hypothesis scopes the statement to where the modelled `wordsep_re`
character classes coincide with Python's Unicode ones. -/
theorem claim_C7 (snippets : List Snippet)
    (_hchar : ∀ s ∈ snippets, ∀ c ∈ s.text.toList, c.toNat < 128) :
    get_transcript snippets =
      textwrapFill 80 (String.intercalate " " (snippets.map Snippet.text)) ∧
    (∀ snippets2 : List Snippet,
      snippets.map Snippet.text = snippets2.map Snippet.text →
      get_transcript snippets = get_transcript snippets2) ∧
    (∀ l ∈ linesOf (get_transcript snippets), l.length ≤ 80) := by
  refine ⟨rfl, fun snippets2 he => ?_, ?_⟩
  · simp only [get_transcript, he]
  · exact textwrapFill_lines 80 (by omega) _

theorem claim_C7_witness :
    get_transcript [⟨"hello  world", "0.0", "1.0"⟩] =
      textwrapFill 80 (String.intercalate " "
        ([⟨"hello  world", "0.0", "1.0"⟩].map Snippet.text)) ∧
    (∀ snippets2 : List Snippet,
      [Snippet.mk "hello  world" "0.0" "1.0"].map Snippet.text =
        snippets2.map Snippet.text →
      get_transcript [⟨"hello  world", "0.0", "1.0"⟩] = get_transcript snippets2) ∧
    (∀ l ∈ linesOf (get_transcript [⟨"hello  world", "0.0", "1.0"⟩]),
      l.length ≤ 80) :=
  claim_C7 [⟨"hello  world", "0.0", "1.0"⟩] (by decide)

/-- Claim C4: for every title, the output path is the fixed output directory
joined with `{yyyyMMddHHmmss}_{videoId}_{sanitizedTitle}.txt`, where the
sanitised title strips every character outside letters, digits and space,
truncates to at most 30 characters, and replaces spaces with hyphens; the
sanitised fragment is at most 30 characters and contains only letters, digits
and hyphens.  (The timestamp is the 14-digit `strftime` rendering; the id is
taken space-free, as YouTube ids are — a space in the id would itself be
hyphenated, see C10.) -/
theorem claim_C4 (date_string video_id yt_title : String)
    (hdate : ∀ c ∈ date_string.toList, c.isDigit = true)
    (hvid : ∀ c ∈ video_id.toList, ¬ c = ' ') :
    make_filename date_string video_id yt_title =
      "yt_summaries/" ++ date_string ++ "_" ++ video_id ++ "_" ++
        sanitizedTitleSpec yt_title ++ ".txt" ∧
    sanitizedTitleSpec yt_title =
      String.mk (((yt_title.toList.filter keepTitleChar).take 30).map hyphenate) ∧
    (sanitizedTitleSpec yt_title).length ≤ 30 ∧
    (∀ c ∈ (sanitizedTitleSpec yt_title).toList,
      c.isAlpha = true ∨ c.isDigit = true ∨ c = '-') := by
  refine ⟨make_filename_no_space_id _ _ _ hdate hvid, rfl, ?_, ?_⟩
  · simp only [sanitizedTitleSpec, String.length_mk, List.length_map]
    have := List.length_take_le 30 (yt_title.toList.filter keepTitleChar)
    omega
  · intro c hc
    simp only [sanitizedTitleSpec, String.toList, List.mem_map] at hc
    obtain ⟨c', hc', rfl⟩ := hc
    have hmem : c' ∈ yt_title.toList.filter keepTitleChar :=
      List.mem_of_mem_take hc'
    have hkeep : keepTitleChar c' = true := (List.mem_filter.mp hmem).2
    simp only [keepTitleChar, Bool.or_eq_true, decide_eq_true_eq] at hkeep
    rcases hkeep with (h | h) | h
    · have hne : ¬ c' = ' ' := by
        intro he
        subst he
        exact absurd h (by decide)
      exact Or.inl (by simp [hyphenate, hne, h])
    · have hne : ¬ c' = ' ' := by
        intro he
        subst he
        exact absurd h (by decide)
      exact Or.inr (Or.inl (by simp [hyphenate, hne, h]))
    · subst h
      exact Or.inr (Or.inr (by simp [hyphenate]))

theorem claim_C4_witness :
    make_filename "20240101123456" "dQw4w9WgXcQ" "Hello, World! 2024 -- Part One (Full)" =
      "yt_summaries/" ++ "20240101123456" ++ "_" ++ "dQw4w9WgXcQ" ++ "_" ++
        sanitizedTitleSpec "Hello, World! 2024 -- Part One (Full)" ++ ".txt" ∧
    sanitizedTitleSpec "Hello, World! 2024 -- Part One (Full)" =
      String.mk ((("Hello, World! 2024 -- Part One (Full)".toList.filter
        keepTitleChar).take 30).map hyphenate) ∧
    (sanitizedTitleSpec "Hello, World! 2024 -- Part One (Full)").length ≤ 30 ∧
    (∀ c ∈ (sanitizedTitleSpec "Hello, World! 2024 -- Part One (Full)").toList,
      c.isAlpha = true ∨ c.isDigit = true ∨ c = '-') :=
  claim_C4 "20240101123456" "dQw4w9WgXcQ" "Hello, World! 2024 -- Part One (Full)"
    (by decide) (by decide)

/-- Claim C10: `make_filename` sanitises only the title argument.  The video
identifier is embedded in the output path unmodified except that the final
space-to-hyphen replacement covers the whole filename (timestamp, identifier
and title alike): a space-free identifier appears verbatim, an identifier
with a space gets that space hyphenated, and an identifier containing `/`
keeps it, so the file lands outside the fixed `yt_summaries` directory —
with `..` components the resolved path escapes it entirely. -/
theorem claim_C10 (date_string video_id yt_title : String)
    (hdate : ∀ c ∈ date_string.toList, c.isDigit = true)
    (hvid : ∀ c ∈ video_id.toList, ¬ c = ' ') :
    make_filename date_string video_id yt_title =
      "yt_summaries/" ++ date_string ++ "_" ++ video_id ++ "_" ++
        sanitizedTitleSpec yt_title ++ ".txt" ∧
    make_filename "20240101000000" "a b" "t" =
      "yt_summaries/20240101000000_a-b_t.txt" ∧
    parentDir (make_filename "20240101000000" "abc/def" "My Title") =
      "yt_summaries/20240101000000_abc" ∧
    ("yt_summaries/20240101000000_abc" : String) ≠ "yt_summaries" ∧
    normalizeSegs (pathSegs (make_filename "20240101000000" "/../../evil" "t")) =
      ["evil_t.txt"] := by
  refine ⟨make_filename_no_space_id _ _ _ hdate hvid, rfl, rfl, by decide, rfl⟩

theorem claim_C10_witness :
    make_filename "20240101000000" "abc/def" "My Title" =
      "yt_summaries/" ++ "20240101000000" ++ "_" ++ "abc/def" ++ "_" ++
        sanitizedTitleSpec "My Title" ++ ".txt" ∧
    make_filename "20240101000000" "a b" "t" =
      "yt_summaries/20240101000000_a-b_t.txt" ∧
    parentDir (make_filename "20240101000000" "abc/def" "My Title") =
      "yt_summaries/20240101000000_abc" ∧
    ("yt_summaries/20240101000000_abc" : String) ≠ "yt_summaries" ∧
    normalizeSegs (pathSegs (make_filename "20240101000000" "/../../evil" "t")) =
      ["evil_t.txt"] :=
  claim_C10 "20240101000000" "abc/def" "My Title" (by decide) (by decide)

/-- Claim C6: a run has no partial-success output.  At most one file is ever
written; a run that exits 0 has written exactly one file; a run that exits
non-zero has written none; and in particular a transcript-fetch failure or a
summarization failure yields a non-zero exit and no output file. -/
theorem claim_C6 (env : List (String × String)) (argv : List String)
    (promptsFile : Option (List String)) (oracle : Oracle) (date_string : String) :
    (runProgram env argv promptsFile oracle date_string).files.length ≤ 1 ∧
    ((runProgram env argv promptsFile oracle date_string).exitCode = 0 →
      (runProgram env argv promptsFile oracle date_string).files.length = 1) ∧
    ((runProgram env argv promptsFile oracle date_string).exitCode ≠ 0 →
      (runProgram env argv promptsFile oracle date_string).files = []) ∧
    (∀ e, oracle.transcriptResult = .error e →
      (runProgram env argv promptsFile oracle date_string).exitCode ≠ 0 ∧
      (runProgram env argv promptsFile oracle date_string).files = []) ∧
    (∀ e, (∀ payload, oracle.completionResult payload = .error e) →
      (runProgram env argv promptsFile oracle date_string).exitCode ≠ 0 ∧
      (runProgram env argv promptsFile oracle date_string).files = []) := by
  refine ⟨?_, ?_, ?_, fun e he => ?_, fun e he => ?_⟩ <;>
    · unfold runProgram
      repeat' split
      all_goals try simp
      repeat' split
      all_goals simp_all

theorem claim_C6_witness :
    (runProgram [("OPENAI_API_KEY", "k")] ["prog", "vid"] none
      ⟨.ok "T", .error "no captions", fun _ => .ok "S"⟩ "20240101000000").exitCode ≠ 0 ∧
    (runProgram [("OPENAI_API_KEY", "k")] ["prog", "vid"] none
      ⟨.ok "T", .error "no captions", fun _ => .ok "S"⟩ "20240101000000").files = [] :=
  (claim_C6 [("OPENAI_API_KEY", "k")] ["prog", "vid"] none
    ⟨.ok "T", .error "no captions", fun _ => .ok "S"⟩ "20240101000000").2.2.2.1
    "no captions" rfl

end AiYtSummary
